import Mathlib

/-!
Shallow embedding of the ranked-choice poll engine of the
`christianparizeau/hellothere` repository, together with proofs of the
spec's claims about it.

Go machine integers are modelled as `Int` (candidate indices stored in a
ballot may be negative, e.g. the sentinel `-1`); candidate identities,
which are always list positions, as `Nat`.  Go strings are `String`
except in the interaction-token codec, where they are modelled as
`List Char` so that the split/join arithmetic can be reasoned about
directly.  Wall-clock reads (`time.Now()`) become an explicit `now`
parameter; a Go `panic` (out-of-range slice index) becomes `Option.none`.

The repository contains divergent drafts of the tally logic; the draft
embedded here is the one the unit tests (`TestCalculateResults`) pin
down: one elimination per round, reverse-elimination-order ranking
(`poll_logic.go` lines 208-302).
-/

namespace HelloThere

/-- Poll lifecycle phase (`polls.go` lines 17-24). -/
inductive PollPhase where
  | PhaseSubmission
  | PhaseVoting
  | PhaseCompleted
deriving DecidableEq, Repr

/-- Maximum number of submissions per poll (`polls.go` line 27). -/
def MaxSubmissions : Nat := 20

/-- A game candidate submitted by a user (`polls.go` lines 43-51).
Timestamps are modelled as `Nat`. -/
structure Submission where
  UserID : String
  Username : String
  GameName : String
  Description : String
  Link : String
  SubmittedAt : Nat
deriving DecidableEq, Repr

/-- A user's ranked choices (`polls.go` lines 53-58).  `Rankings` holds
indices into `Poll.Submissions`; a slot may hold the sentinel `-1` or any
other out-of-range value, hence `Int`. -/
structure Vote where
  UserID : String
  Rankings : List Int
  VotedAt : Nat
deriving DecidableEq, Repr

/-- A single poll (`polls.go` lines 60-73).  The per-poll mutex and the
Discord interaction handle carry no poll-engine state and are omitted. -/
structure Poll where
  ID : String
  GuildID : String
  ChannelID : String
  CreatorID : String
  Phase : PollPhase
  Submissions : List Submission
  Votes : List Vote
  EndTime : Nat
  CreatedAt : Nat
deriving DecidableEq, Repr

/-! ## Tally engine (`poll_logic.go` lines 208-302) -/

/-- The inner scan of one ballot in a counting round (`poll_logic.go`
lines 234-240): the voter's highest-ranked entry that is in `[0, N)` and
names a not-yet-eliminated candidate. -/
def firstChoice (numCandidates : Nat) (eliminated : List Nat)
    (rankings : List Int) : Option Int :=
  rankings.find? (fun c =>
    decide (0 ≤ c) && decide (c < (numCandidates : Int)) &&
      !(eliminated.contains c.toNat))

/-- Number of ballots whose current first choice is candidate `c`
(`poll_logic.go` lines 232-241, reading the Go `counts` map at key `c`;
a key never incremented reads as `0`). -/
def countVotes (votes : List (List Int)) (numCandidates : Nat)
    (eliminated : List Nat) (c : Nat) : Nat :=
  votes.countP (fun rankings =>
    firstChoice numCandidates eliminated rankings == some (c : Int))

/-- Candidates not yet eliminated, in ascending index order (the
ascending loops over `0 ..< numCandidates` in `poll_logic.go`
lines 245-259 and 269-274). -/
def remainingCandidates (numCandidates : Nat) (eliminated : List Nat) :
    List Nat :=
  (List.range numCandidates).filter (fun c => !(eliminated.contains c))

/-- Minimum ballot count among the remaining candidates, starting from
the sentinel `len(votes) + 1` (`poll_logic.go` lines 243-251). -/
def minVotes (votes : List (List Int)) (numCandidates : Nat)
    (eliminated : List Nat) : Nat :=
  (remainingCandidates numCandidates eliminated).foldl
    (fun m c => min m (countVotes votes numCandidates eliminated c))
    (votes.length + 1)

/-- Remaining candidates tied for the minimum count, ascending
(`poll_logic.go` lines 253-260; the Go loop is ascending so the
`sort.Ints` there is the identity). -/
def tiedCandidates (votes : List (List Int)) (numCandidates : Nat)
    (eliminated : List Nat) : List Nat :=
  (List.range numCandidates).filter (fun c =>
    !(eliminated.contains c) &&
      countVotes votes numCandidates eliminated c ==
        minVotes votes numCandidates eliminated)

/-- One elimination round: the first tied candidate is eliminated
(`poll_logic.go` lines 262-265).  `none` models the panic Go would raise
on `tiedCandidates[0]` were the tie list empty. -/
def roundEliminate (votes : List (List Int)) (numCandidates : Nat)
    (eliminated : List Nat) : Option Nat :=
  (tiedCandidates votes numCandidates eliminated).head?

/-- The elimination loop `for len(eliminated) < numCandidates-1`
(`poll_logic.go` lines 230-266), as fuel-indexed recursion: each
successful round eliminates exactly one candidate, so running the loop
body `fuel` times from `eliminated` reproduces the loop that stops at
`numCandidates - 1` eliminations. -/
def elimRounds (votes : List (List Int)) (numCandidates : Nat) :
    Nat → List Nat → Option (List Nat)
  | 0, eliminated => some eliminated
  | fuel + 1, eliminated =>
    match roundEliminate votes numCandidates eliminated with
    | some c => elimRounds votes numCandidates fuel (eliminated ++ [c])
    | none => none

/-- Instant-runoff tally (`poll_logic.go` lines 210-283).  Returns the
full ranking, winner first; `none` models the (unreachable) panic inside
the elimination loop. -/
def CalculateResults (p : Poll) : Option (List Nat) :=
  let numCandidates := p.Submissions.length
  if numCandidates = 0 then some []
  else if p.Votes.length = 0 then some (List.range numCandidates)
  else
    match elimRounds (p.Votes.map Vote.Rankings) numCandidates
        (numCandidates - 1) [] with
    | none => none
    | some eliminationOrder =>
      -- append the last remaining candidate, the winner
      -- (`poll_logic.go` lines 268-274), then reverse (lines 276-280)
      let fullOrder :=
        match (remainingCandidates numCandidates eliminationOrder).head? with
        | some w => eliminationOrder ++ [w]
        | none => eliminationOrder
      some fullOrder.reverse

/-! ## Vote finalization (`poll_logic.go` lines 179-206) -/

/-- The validation scan over one ballot (`poll_logic.go` lines 190-200):
walk the rankings left to right, failing on the first out-of-range index
or the first index already seen. -/
def checkRanks (numCandidates : Nat) (seen : List Int) :
    List Int → Option String
  | [] => none
  | rank :: rest =>
    if rank < 0 ∨ (numCandidates : Int) ≤ rank then
      some ("invalid ranking index: " ++ toString rank)
    else if seen.contains rank then some "duplicate ranking detected"
    else checkRanks numCandidates (rank :: seen) rest

/-- The loop of `FinalizeVote` over `p.Votes` (`poll_logic.go`
lines 183-204): every vote of `userID` is validated and, on success,
stamped with the current time; the first validation failure returns the
error immediately, leaving the rest of the list as it stood. -/
def finalizeWalk (numCandidates : Nat) (userID : String) (now : Nat) :
    List Vote → Option String × List Vote
  | [] => (none, [])
  | v :: rest =>
    if v.UserID = userID then
      if v.Rankings.length ≠ numCandidates then
        (some ("must rank all " ++ toString numCandidates ++ " submissions"),
          v :: rest)
      else
        match checkRanks numCandidates [] v.Rankings with
        | some e => (some e, v :: rest)
        | none =>
          let out := finalizeWalk numCandidates userID now rest
          (out.fst, { v with VotedAt := now } :: out.snd)
    else
      let out := finalizeWalk numCandidates userID now rest
      (out.fst, v :: out.snd)

/-- Finalize a user's vote (`poll_logic.go` lines 179-206).  The Go
function mutates `p` in place and returns an `error`; here it returns
the optional error message together with the resulting poll state. -/
def FinalizeVote (p : Poll) (userID : String) (now : Nat) :
    Option String × Poll :=
  if p.Phase ≠ PollPhase.PhaseVoting then
    (some "poll is not in voting phase", p)
  else
    let out := finalizeWalk p.Submissions.length userID now p.Votes
    (out.fst, { p with Votes := out.snd })

/-! ## Vote upsert (`polls.go` lines 452-469) -/

/-- Write `x` at position `i` of `l`, or fault (`none`) when `i` is out
of bounds — the Go slice store `Rankings[rank] = selection` panics
there. -/
def setRank (l : List Int) (i : Int) (x : Int) : Option (List Int) :=
  if 0 ≤ i ∧ i < (l.length : Int) then some (l.set i.toNat x) else none

/-- The body of `UpsertVote` over the vote list (`polls.go`
lines 453-468): mutate the slot of the first vote owned by `userID`, or
append a fresh vote sized to the submission count, all slots `-1` except
the one written.  `none` models the index-out-of-range panic. -/
def upsertWalk (userID : String) (rank selection : Int)
    (numCandidates : Nat) : List Vote → Option (List Vote)
  | [] =>
    match setRank (List.replicate numCandidates (-1 : Int)) rank selection with
    | some rs => some [{ UserID := userID, Rankings := rs, VotedAt := 0 }]
    | none => none
  | v :: rest =>
    if v.UserID = userID then
      match setRank v.Rankings rank selection with
      | some rs => some ({ v with Rankings := rs } :: rest)
      | none => none
    else
      match upsertWalk userID rank selection numCandidates rest with
      | some rest2 => some (v :: rest2)
      | none => none

/-- Upsert one ranking slot of a user's vote (`polls.go`
lines 452-469). -/
def UpsertVote (p : Poll) (userID : String) (rank selection : Int) :
    Option Poll :=
  match upsertWalk userID rank selection p.Submissions.length p.Votes with
  | some vs => some { p with Votes := vs }
  | none => none

/-! ## Phase transitions (`polls.go` lines 655-675 and 705-720)

The Discord handlers guard the transition with ephemeral notices and
early returns; the embedding keeps the guard order and returns the
notice text together with the resulting poll state. -/

/-- Lock the poll and move it to the voting phase (`polls.go`
lines 655-675). -/
def HandleLockButton (actorID : String) (p : Poll) : Option String × Poll :=
  if actorID ≠ p.CreatorID then
    (some "Only the poll creator can lock the poll early.", p)
  else if p.Phase ≠ PollPhase.PhaseSubmission then
    (some "This poll is not in the submission phase.", p)
  else if p.Submissions.length = 0 then
    (some "Cannot lock poll with no submissions.", p)
  else (none, { p with Phase := PollPhase.PhaseVoting })

/-- End the poll and move it to the completed phase (`polls.go`
lines 705-720). -/
def HandleEndButton (actorID : String) (p : Poll) : Option String × Poll :=
  if actorID ≠ p.CreatorID then
    (some "Only the poll creator can end voting early.", p)
  else if p.Phase ≠ PollPhase.PhaseVoting then
    (some "This poll is not in the voting phase.", p)
  else (none, { p with Phase := PollPhase.PhaseCompleted })

/-! ## Interaction-token codec (`polls.go` lines 571-588)

Strings are modelled as `List Char` here so the split/join structure can
be reasoned about by list induction. -/

/-- An interaction token before encoding (`polls.go` lines 571-575).
The Go `kind` newtype is a string. -/
structure formID where
  Kind : List Char
  PollID : List Char
  Rank : Int
deriving DecidableEq, Repr

/-- Go's `strings.Split` specialised to a one-character separator:
splitting the empty string yields `[""]`, and every occurrence of the
separator opens a new field. -/
def splitOnChar (sep : Char) : List Char → List (List Char)
  | [] => [[]]
  | c :: cs =>
    if c = sep then [] :: splitOnChar sep cs
    else
      match splitOnChar sep cs with
      | r :: rs => (c :: r) :: rs
      | [] => [[c]]

/-- The character for one decimal digit. -/
def digitChar (d : Nat) : Char :=
  match d with
  | 0 => '0' | 1 => '1' | 2 => '2' | 3 => '3' | 4 => '4'
  | 5 => '5' | 6 => '6' | 7 => '7' | 8 => '8' | _ => '9'

/-- Decimal digits of `n`, most significant first, accumulated onto
`acc`. -/
def natToCharsAux : Nat → List Char → List Char
  | 0, acc => acc
  | n + 1, acc =>
    natToCharsAux ((n + 1) / 10) (digitChar ((n + 1) % 10) :: acc)
decreasing_by exact Nat.div_lt_self (Nat.succ_pos n) (by omega)

/-- Decimal rendering of a natural number. -/
def natToChars (n : Nat) : List Char :=
  if n = 0 then ['0'] else natToCharsAux n []

/-- Go's `%d` formatting of a (signed) integer. -/
def intToChars (i : Int) : List Char :=
  if i < 0 then '-' :: natToChars i.natAbs else natToChars i.toNat

/-- Accumulating decimal scan: fails on the first non-digit
character. -/
def parseNatDigits : List Char → Nat → Option Nat
  | [], acc => some acc
  | c :: rest, acc =>
    if 48 ≤ c.toNat ∧ c.toNat ≤ 57 then
      parseNatDigits rest (acc * 10 + (c.toNat - 48))
    else none

/-- Go's `strconv.Atoi` with the error discarded, as `parseForm` uses it
(`polls.go` line 585): an optional sign followed by at least one digit
parses to its value, anything else yields the zero value.  (64-bit range
clamping is not modelled; every value the codec round-trips is printed
and re-read unchanged, so it is out of scope.) -/
def Atoi (s : List Char) : Int :=
  match s with
  | [] => 0
  | c :: rest =>
    if c = '-' then
      if rest = [] then 0
      else match parseNatDigits rest 0 with
        | some n => -(n : Int)
        | none => 0
    else if c = '+' then
      if rest = [] then 0
      else match parseNatDigits rest 0 with
        | some n => (n : Int)
        | none => 0
    else
      match parseNatDigits (c :: rest) 0 with
      | some n => (n : Int)
      | none => 0

/-- Encode a token (`polls.go` lines 577-579):
`fmt.Sprintf("%s_%s_%d", f.Kind, f.PollID, f.Rank)`. -/
def formID.String (f : formID) : List Char :=
  f.Kind ++ '_' :: f.PollID ++ '_' :: intToChars f.Rank

/-- Decode a token (`polls.go` lines 580-588).  `none` models the panic
Go raises on `split[1]` when the input holds no separator; a third field
is parsed as the rank only when the token has exactly three fields. -/
def parseForm (s : List Char) : Option formID :=
  match splitOnChar '_' s with
  | k :: pollID :: rest =>
    some { Kind := k, PollID := pollID,
           Rank := match rest with
                   | [r] => Atoi r
                   | _ => 0 }
  | _ => none

/-! ## Concrete poll states used by counterexamples and witnesses -/

/-- A sample submission. -/
def subA : Submission :=
  { UserID := "alice", Username := "alice", GameName := "GameA",
    Description := "", Link := "", SubmittedAt := 0 }

/-- A sample submission. -/
def subB : Submission :=
  { UserID := "bob", Username := "bob", GameName := "GameB",
    Description := "", Link := "", SubmittedAt := 0 }

/-- A poll in the voting phase with one submission and no votes. -/
def votingPoll : Poll :=
  { ID := "g-1", GuildID := "g", ChannelID := "ch", CreatorID := "alice",
    Phase := PollPhase.PhaseVoting, Submissions := [subA], Votes := [],
    EndTime := 0, CreatedAt := 0 }

/-- A poll in the submission phase with one submission. -/
def submissionPoll : Poll :=
  { ID := "g-2", GuildID := "g", ChannelID := "ch", CreatorID := "alice",
    Phase := PollPhase.PhaseSubmission, Submissions := [subA], Votes := [],
    EndTime := 0, CreatedAt := 0 }

/-- Two candidates, one ballot `[0,1]` and one ballot `[1,0]`: the
spec's concrete tie-break scenario. -/
def tiePoll : Poll :=
  { ID := "g-3", GuildID := "g", ChannelID := "ch", CreatorID := "alice",
    Phase := PollPhase.PhaseCompleted, Submissions := [subA, subB],
    Votes := [{ UserID := "v1", Rankings := [0, 1], VotedAt := 0 },
              { UserID := "v2", Rankings := [1, 0], VotedAt := 0 }],
    EndTime := 0, CreatedAt := 0 }

/-! ## Claim C4: no-vote fallback -/

/-- C4: for every N ≥ 1, `CalculateResults` on a poll with N submissions
and zero votes returns the candidates in ascending natural index order
`[0, 1, ..., N-1]`. -/
theorem calculateResults_no_votes (p : Poll)
    (hN : 1 ≤ p.Submissions.length) (hv : p.Votes = []) :
    CalculateResults p = some (List.range p.Submissions.length) := by
  have h0 : p.Submissions.length ≠ 0 := by omega
  simp [CalculateResults, hv, h0]

/-- Witness for C4 at a concrete two-candidate poll with no votes. -/
theorem calculateResults_no_votes_witness :
    CalculateResults { tiePoll with Votes := [] } = some (List.range 2) :=
  calculateResults_no_votes { tiePoll with Votes := [] }
    (by decide) (by decide)

/-! ## Claim C5: determinism -/

/-- C5: `CalculateResults` is a pure function of the poll's submissions
and votes: any two poll states agreeing on those fields (in particular,
two reads of one unchanged state) produce exactly the same output
list. -/
theorem calculateResults_deterministic (p q : Poll)
    (hs : p.Submissions = q.Submissions) (hv : p.Votes = q.Votes) :
    CalculateResults p = CalculateResults q := by
  simp only [CalculateResults, hs, hv]

/-- Witness for C5: two distinct poll records with the same submissions
and votes tally identically. -/
theorem calculateResults_deterministic_witness :
    CalculateResults tiePoll = CalculateResults { tiePoll with ID := "other" } :=
  calculateResults_deterministic tiePoll { tiePoll with ID := "other" }
    rfl rfl

/-! ## Claim C7: strictly forward phase transitions -/

/-- C7: `Lock` succeeds (moving the phase to Voting) exactly when the
phase is Submission, the actor is the creator and at least one
submission exists; `End` succeeds (moving the phase to Completed)
exactly when the phase is Voting and the actor is the creator; every
failing call leaves the poll record entirely unchanged. -/
theorem phase_transitions_forward (p : Poll) (actor : String) :
    ((HandleLockButton actor p).fst = none ↔
      actor = p.CreatorID ∧ p.Phase = PollPhase.PhaseSubmission ∧
        p.Submissions.length ≠ 0) ∧
    ((HandleLockButton actor p).fst = none →
      (HandleLockButton actor p).snd = { p with Phase := PollPhase.PhaseVoting }) ∧
    ((HandleLockButton actor p).fst ≠ none →
      (HandleLockButton actor p).snd = p) ∧
    ((HandleEndButton actor p).fst = none ↔
      actor = p.CreatorID ∧ p.Phase = PollPhase.PhaseVoting) ∧
    ((HandleEndButton actor p).fst = none →
      (HandleEndButton actor p).snd = { p with Phase := PollPhase.PhaseCompleted }) ∧
    ((HandleEndButton actor p).fst ≠ none →
      (HandleEndButton actor p).snd = p) := by
  unfold HandleLockButton HandleEndButton
  by_cases h1 : actor = p.CreatorID <;>
    by_cases h2 : p.Phase = PollPhase.PhaseSubmission <;>
      by_cases h3 : p.Phase = PollPhase.PhaseVoting <;>
        by_cases h4 : p.Submissions.length = 0 <;>
          simp_all

/-- Witness for C7: a creator's `Lock` on a one-submission poll in the
submission phase succeeds and moves the phase to Voting. -/
theorem phase_transitions_forward_witness :
    (HandleLockButton "alice" submissionPoll).snd =
      { submissionPoll with Phase := PollPhase.PhaseVoting } :=
  (phase_transitions_forward submissionPoll "alice").2.1 (by decide)

/-! ## Claim C2: FinalizeVote phase guard and the missing-vote case

The claim says a `FinalizeVote` call in the Voting phase for a user with
no Vote returns an error.  It does not: the validation loop body never
runs, so the call returns `nil` (success).  The phase half of the claim
does hold. -/

/-- Helper: the `FinalizeVote` loop leaves the vote list unchanged and
reports no error when no vote belongs to the user. -/
theorem finalizeWalk_no_match (numCandidates : Nat) (userID : String)
    (now : Nat) (vs : List Vote) (h : ∀ v ∈ vs, v.UserID ≠ userID) :
    finalizeWalk numCandidates userID now vs = (none, vs) := by
  induction vs with
  | nil => rfl
  | cons v rest ih =>
    have hv : v.UserID ≠ userID := h v (by simp)
    have := ih (fun w hw => h w (by simp [hw]))
    simp [finalizeWalk, hv, this]

/-- C2 counterexample: in the Voting phase, with no Vote at all stored
for user "bob", `FinalizeVote` returns no error (the claim requires an
error here). -/
theorem finalizeVote_missing_vote_cex :
    votingPoll.Phase = PollPhase.PhaseVoting ∧
    (∀ v ∈ votingPoll.Votes, v.UserID ≠ "bob") ∧
    (FinalizeVote votingPoll "bob" 7).fst = none := by
  refine ⟨rfl, ?_, rfl⟩
  intro v hv
  simp [votingPoll] at hv

/-- C2 (amended): `FinalizeVote` called in any phase other than Voting
returns an error and changes nothing; called in the Voting phase for a
userID that has no Vote in the poll, it returns success (no error)
and changes nothing, rather than rejecting the call. -/
theorem finalizeVote_phase_guard (p : Poll) (userID : String) (now : Nat) :
    (p.Phase ≠ PollPhase.PhaseVoting →
      FinalizeVote p userID now = (some "poll is not in voting phase", p)) ∧
    (p.Phase = PollPhase.PhaseVoting →
      (∀ v ∈ p.Votes, v.UserID ≠ userID) →
      FinalizeVote p userID now = (none, p)) := by
  obtain ⟨pid, g, ch, cr, ph, subs, vts, e, ca⟩ := p
  constructor
  · intro h
    simp [FinalizeVote, h]
  · intro hph hnone
    simp only at hph hnone
    subst hph
    simp [FinalizeVote, finalizeWalk_no_match _ _ _ _ hnone]

/-- Witness for C2's amended statement: a poll in the submission phase
rejects `FinalizeVote`, and the voting-phase poll with no votes accepts
it without change. -/
theorem finalizeVote_phase_guard_witness :
    FinalizeVote submissionPoll "alice" 7 =
      (some "poll is not in voting phase", submissionPoll) ∧
    FinalizeVote votingPoll "carol" 7 = (none, votingPoll) :=
  ⟨(finalizeVote_phase_guard submissionPoll "alice" 7).1 (by decide),
   (finalizeVote_phase_guard votingPoll "carol" 7).2 rfl
     (by intro v hv; simp [votingPoll] at hv)⟩

/-! ## Claim C6: FinalizeVote rejects invalid rankings without change -/

/-- Helper: the ranking scan accepts exactly the rankings every entry of
which is in `[0, N)`, repeats no entry, and avoids the `seen` prefix. -/
theorem checkRanks_eq_none_iff (numCandidates : Nat) :
    ∀ (rs seen : List Int),
      checkRanks numCandidates seen rs = none ↔
        (∀ r ∈ rs, 0 ≤ r ∧ r < (numCandidates : Int)) ∧ rs.Nodup ∧
          ∀ r ∈ rs, r ∉ seen := by
  intro rs
  induction rs with
  | nil => simp [checkRanks]
  | cons r rest ih =>
    intro seen
    by_cases h1 : r < 0 ∨ (numCandidates : Int) ≤ r
    · simp only [checkRanks, if_pos h1]
      constructor
      · intro h; cases h
      · rintro ⟨hin, -, -⟩
        have := hin r (by simp)
        omega
    · by_cases h2 : seen.contains r
      · simp only [checkRanks, if_neg h1, if_pos h2]
        constructor
        · intro h; cases h
        · rintro ⟨-, -, hns⟩
          exact absurd (List.elem_iff.mp h2) (hns r (by simp))
      · simp only [checkRanks, if_neg h1, if_neg h2, ih (r :: seen)]
        have hr : r ∉ seen := fun hmem => h2 (List.elem_iff.mpr hmem)
        constructor
        · rintro ⟨hin, hnd, hns⟩
          refine ⟨?_, ?_, ?_⟩
          · intro x hx
            rcases List.mem_cons.mp hx with rfl | hx
            · omega
            · exact hin x hx
          · exact List.nodup_cons.mpr ⟨fun hmem => (hns r hmem) (by simp), hnd⟩
          · intro x hx
            rcases List.mem_cons.mp hx with rfl | hx
            · exact hr
            · exact fun hmem => (hns x hx) (by simp [hmem])
        · rintro ⟨hin, hnd, hns⟩
          obtain ⟨hnr, hnd2⟩ := List.nodup_cons.mp hnd
          refine ⟨fun x hx => hin x (by simp [hx]), hnd2, ?_⟩
          intro x hx hmem
          rcases List.mem_cons.mp hmem with rfl | hm
          · exact hnr hx
          · exact (hns x (by simp [hx])) hm

/-- Helper: when the first vote of `userID` fails validation, the
`FinalizeVote` loop returns an error and the vote list it leaves behind
is the original one. -/
theorem finalizeWalk_first_bad (numCandidates : Nat) (userID : String)
    (now : Nat) :
    ∀ (vs : List Vote) (v : Vote),
      vs.find? (fun w => w.UserID == userID) = some v →
      (v.Rankings.length ≠ numCandidates ∨
        checkRanks numCandidates [] v.Rankings ≠ none) →
      ∃ e, finalizeWalk numCandidates userID now vs = (some e, vs) := by
  intro vs
  induction vs with
  | nil => intro v h; simp at h
  | cons w rest ih =>
    intro v hfind hbad
    by_cases hw : w.UserID = userID
    · have hv : w = v := by
        simp [List.find?_cons, hw] at hfind
        exact hfind
      subst hv
      by_cases hlen : w.Rankings.length ≠ numCandidates
      · refine ⟨"must rank all " ++ toString numCandidates ++ " submissions", ?_⟩
        simp [finalizeWalk, hw, hlen]
      · rcases hbad with hbad | hbad
        · exact absurd hbad (by simpa using hlen)
        · obtain ⟨e, he⟩ := Option.ne_none_iff_exists'.mp hbad
          refine ⟨e, ?_⟩
          simp only [finalizeWalk, if_pos hw, if_neg hlen, he]
    · have hbeq : (w.UserID == userID) = false := beq_eq_false_iff_ne.mpr hw
      simp only [List.find?_cons, hbeq] at hfind
      obtain ⟨e, he⟩ := ih v hfind hbad
      exact ⟨e, by simp [finalizeWalk, hw, he]⟩

/-- C6: in the Voting phase, for a user whose (first) Vote exists,
`FinalizeVote` rejects with an error a ranking whose length differs from
the submission count, a ranking containing an index outside `[0, N)`,
and a ranking with a repeated index — and on every such rejection the
whole poll state, the user's Vote included, is left unchanged. -/
theorem finalizeVote_rejects_invalid (p : Poll) (userID : String)
    (now : Nat) (v : Vote)
    (hph : p.Phase = PollPhase.PhaseVoting)
    (hfind : p.Votes.find? (fun w => w.UserID == userID) = some v)
    (hbad : v.Rankings.length ≠ p.Submissions.length ∨
      (∃ r ∈ v.Rankings, r < 0 ∨ (p.Submissions.length : Int) ≤ r) ∨
      ¬ v.Rankings.Nodup) :
    (FinalizeVote p userID now).fst.isSome = true ∧
      (FinalizeVote p userID now).snd = p := by
  have hbad2 : v.Rankings.length ≠ p.Submissions.length ∨
      checkRanks p.Submissions.length [] v.Rankings ≠ none := by
    rcases hbad with h | h | h
    · exact Or.inl h
    · refine Or.inr fun hc => ?_
      obtain ⟨r, hr, hout⟩ := h
      have := ((checkRanks_eq_none_iff _ _ _).mp hc).1 r hr
      omega
    · refine Or.inr fun hc => ?_
      exact h ((checkRanks_eq_none_iff _ _ _).mp hc).2.1
  obtain ⟨e, he⟩ := finalizeWalk_first_bad p.Submissions.length userID now
    p.Votes v hfind hbad2
  obtain ⟨pid, g, ch, cr, ph, subs, vts, e2, ca⟩ := p
  simp only at hph
  subst hph
  simp only at he
  simp [FinalizeVote, he]

/-- Witness for C6: a vote ranking only submission 0 in a two-submission
poll is rejected with the poll left unchanged. -/
theorem finalizeVote_rejects_invalid_witness :
    (FinalizeVote
        { tiePoll with Phase := PollPhase.PhaseVoting,
                       Votes := [{ UserID := "v1", Rankings := [0], VotedAt := 0 }] }
        "v1" 7).fst.isSome = true ∧
    (FinalizeVote
        { tiePoll with Phase := PollPhase.PhaseVoting,
                       Votes := [{ UserID := "v1", Rankings := [0], VotedAt := 0 }] }
        "v1" 7).snd =
      { tiePoll with Phase := PollPhase.PhaseVoting,
                     Votes := [{ UserID := "v1", Rankings := [0], VotedAt := 0 }] } :=
  finalizeVote_rejects_invalid _ "v1" 7
    { UserID := "v1", Rankings := [0], VotedAt := 0 }
    rfl (by decide) (by decide)

/-! ## Claims C8 and C10: UpsertVote -/

/-- Helper: with no existing vote for the user, `UpsertVote`'s loop
falls through to the create-and-append branch. -/
theorem upsertWalk_no_match (userID : String) (rank selection : Int)
    (numCandidates : Nat) :
    ∀ vs : List Vote, (∀ v ∈ vs, v.UserID ≠ userID) →
      upsertWalk userID rank selection numCandidates vs =
        match setRank (List.replicate numCandidates (-1 : Int)) rank selection with
        | some rs => some (vs ++ [{ UserID := userID, Rankings := rs, VotedAt := 0 }])
        | none => none := by
  intro vs
  induction vs with
  | nil => intro _; rfl
  | cons v rest ih =>
    intro h
    have hv : v.UserID ≠ userID := h v (by simp)
    have ih2 := ih (fun w hw => h w (by simp [hw]))
    cases hsr : setRank (List.replicate numCandidates (-1 : Int)) rank selection with
    | some rs => simp [upsertWalk, hv, ih2, hsr]
    | none => simp [upsertWalk, hv, ih2, hsr]

/-- Helper: when the single vote of the user sits at the end of the list
and rewriting its slot leaves it unchanged, the whole walk is the
identity. -/
theorem upsertWalk_append_match (userID : String) (rank selection : Int)
    (numCandidates : Nat) (nv : Vote) (hmatch : nv.UserID = userID)
    (hset : setRank nv.Rankings rank selection = some nv.Rankings) :
    ∀ vs : List Vote, (∀ v ∈ vs, v.UserID ≠ userID) →
      upsertWalk userID rank selection numCandidates (vs ++ [nv]) =
        some (vs ++ [nv]) := by
  intro vs
  induction vs with
  | nil =>
    intro _
    obtain ⟨u, rks, t⟩ := nv
    simp only at hmatch hset
    subst hmatch
    simp [upsertWalk, hset]
  | cons v rest ih =>
    intro h
    have hv : v.UserID ≠ userID := h v (by simp)
    simp [upsertWalk, hv, ih (fun w hw => h w (by simp [hw]))]

/-- C8: on the first call for a userID (with an in-range rank),
`UpsertVote` appends one Vote sized to the current submission count, all
slots the sentinel `-1` except the given rank slot which holds the given
selection; calling `UpsertVote` again with identical arguments leaves
exactly one Vote record for that user, with unchanged content. -/
theorem upsertVote_idempotent (p : Poll) (userID : String)
    (rank selection : Int)
    (hno : ∀ v ∈ p.Votes, v.UserID ≠ userID)
    (h0 : 0 ≤ rank) (hlt : rank < (p.Submissions.length : Int)) :
    ∃ p1, UpsertVote p userID rank selection = some p1 ∧
      p1.Votes = p.Votes ++
        [{ UserID := userID,
           Rankings := (List.replicate p.Submissions.length (-1 : Int)).set
             rank.toNat selection,
           VotedAt := 0 }] ∧
      p1.Votes.countP (fun v => v.UserID == userID) = 1 ∧
      ((List.replicate p.Submissions.length (-1 : Int)).set
        rank.toNat selection).length = p.Submissions.length ∧
      ((List.replicate p.Submissions.length (-1 : Int)).set
        rank.toNat selection)[rank.toNat]? = some selection ∧
      (∀ j, j < p.Submissions.length → j ≠ rank.toNat →
        ((List.replicate p.Submissions.length (-1 : Int)).set
          rank.toNat selection)[j]? = some (-1)) ∧
      UpsertVote p1 userID rank selection = some p1 := by
  set N := p.Submissions.length with hN
  set rs : List Int := (List.replicate N (-1 : Int)).set rank.toNat selection
    with hrs
  have htn : rank.toNat < N := by omega
  have hsr : setRank (List.replicate N (-1 : Int)) rank selection = some rs := by
    rw [setRank, if_pos]
    simp [List.length_replicate, h0, hlt]
  set nv : Vote := { UserID := userID, Rankings := rs, VotedAt := 0 } with hnv
  have hwalk : upsertWalk userID rank selection N p.Votes =
      some (p.Votes ++ [nv]) := by
    rw [upsertWalk_no_match userID rank selection N p.Votes hno, hsr]
  have hlen : rs.length = N := by
    rw [hrs]
    simp [List.length_set, List.length_replicate]
  refine ⟨{ p with Votes := p.Votes ++ [nv] }, ?_, rfl, ?_, hlen, ?_, ?_, ?_⟩
  · rw [UpsertVote]
    simp only at hwalk
    rw [hwalk]
  · rw [List.countP_append]
    have h1 : p.Votes.countP (fun v => v.UserID == userID) = 0 :=
      List.countP_eq_zero.mpr (fun v hv => by simp [hno v hv])
    simp [h1, hnv]
  · rw [hrs]
    rw [List.getElem?_set_self (by simpa [List.length_replicate] using htn)]
  · intro j hj hne
    rw [hrs, List.getElem?_set_ne (fun h => hne h.symm), List.getElem?_replicate,
      if_pos hj]
  · have hset2 : setRank nv.Rankings rank selection = some nv.Rankings := by
      rw [setRank, if_pos]
      · simp only [hnv, hrs, List.set_set]
      · simp [hnv, hlen, h0, hlt]
    have := upsertWalk_append_match userID rank selection N nv rfl hset2
      p.Votes hno
    rw [UpsertVote]
    simp only at this ⊢
    rw [this]

/-- Witness for C8 on a concrete empty-vote poll with two submissions:
writing rank 1 twice produces a single idempotent vote record. -/
theorem upsertVote_idempotent_witness :
    ∃ p1, UpsertVote { tiePoll with Votes := [] } "carol" 1 0 = some p1 ∧
      p1.Votes = [] ++
        [{ UserID := "carol",
           Rankings := (List.replicate 2 (-1 : Int)).set 1 0,
           VotedAt := 0 }] ∧
      p1.Votes.countP (fun v => v.UserID == "carol") = 1 ∧
      ((List.replicate 2 (-1 : Int)).set 1 0).length = 2 ∧
      ((List.replicate 2 (-1 : Int)).set 1 0)[(1 : Int).toNat]? = some 0 ∧
      (∀ j, j < 2 → j ≠ (1 : Int).toNat →
        ((List.replicate 2 (-1 : Int)).set 1 0)[j]? = some (-1)) ∧
      UpsertVote p1 "carol" 1 0 = some p1 :=
  upsertVote_idempotent { tiePoll with Votes := [] } "carol" 1 0
    (by intro v hv; simp at hv) (by decide) (by decide)

/-- Helper: the walk of `UpsertVote` succeeds exactly when the written
slot is in bounds for the first existing vote of the user, or, when no
vote exists, for the fresh vote sized to the submission count. -/
theorem upsertWalk_isSome (userID : String) (rank selection : Int)
    (numCandidates : Nat) :
    ∀ vs : List Vote,
      (upsertWalk userID rank selection numCandidates vs).isSome = true ↔
        (match vs.find? (fun v => v.UserID == userID) with
         | some v => 0 ≤ rank ∧ rank < (v.Rankings.length : Int)
         | none => 0 ≤ rank ∧ rank < (numCandidates : Int)) := by
  intro vs
  induction vs with
  | nil =>
    by_cases hc : 0 ≤ rank ∧ rank < (numCandidates : Int) <;>
      simp [upsertWalk, setRank, List.length_replicate, hc]
  | cons v rest ih =>
    by_cases hv : v.UserID = userID
    · have hbeq : (v.UserID == userID) = true := by simp [hv]
      simp only [List.find?_cons, hbeq]
      by_cases hc : 0 ≤ rank ∧ rank < (v.Rankings.length : Int) <;>
        simp [upsertWalk, hv, setRank, hc]
    · have hbeq : (v.UserID == userID) = false := beq_eq_false_iff_ne.mpr hv
      simp only [List.find?_cons, hbeq]
      rw [← ih]
      cases hres : upsertWalk userID rank selection numCandidates rest <;>
        simp [upsertWalk, hv, hres]

/-- C10: `UpsertVote` succeeds exactly under the precondition
`0 ≤ rank < len` — `len` being the length of the user's existing
`Rankings` when a vote exists, and the current submission count
otherwise; outside it (negative rank from a decoded token, or a rank at
or past the bound) the unguarded store `Rankings[rank] = selection`
faults (`none`, the modelled panic) instead of returning an error. -/
theorem upsertVote_unguarded_index (p : Poll) (userID : String)
    (rank selection : Int) :
    (UpsertVote p userID rank selection).isSome = true ↔
      (match p.Votes.find? (fun v => v.UserID == userID) with
       | some v => 0 ≤ rank ∧ rank < (v.Rankings.length : Int)
       | none => 0 ≤ rank ∧ rank < (p.Submissions.length : Int)) := by
  rw [← upsertWalk_isSome userID rank selection p.Submissions.length p.Votes]
  rw [UpsertVote]
  cases h : upsertWalk userID rank selection p.Submissions.length p.Votes <;>
    simp [h]

/-! ## Claim C3: tie-break eliminates the smallest index -/

/-- Helper: the head of a filtered index range is its least element. -/
theorem head?_filter_range_le (n : Nat) (p : Nat → Bool) (c : Nat)
    (h : ((List.range n).filter p).head? = some c) :
    ∀ d ∈ (List.range n).filter p, c ≤ d := by
  have hpw : ((List.range n).filter p).Pairwise (· < ·) :=
    List.Pairwise.sublist (List.filter_sublist _) (List.pairwise_lt_range n)
  cases hl : (List.range n).filter p with
  | nil => rw [hl] at h; cases h
  | cons a t =>
    rw [hl] at h hpw
    have ha : a = c := by simpa using h
    subst ha
    intro d hd
    rcases List.mem_cons.mp hd with rfl | hd
    · exact Nat.le_refl _
    · exact Nat.le_of_lt ((List.pairwise_cons.mp hpw).1 d hd)

/-- Helper: the candidate an elimination round picks is remaining, has
the minimum count, and is least among the candidates tied for it. -/
theorem roundEliminate_spec (votes : List (List Int)) (numCandidates : Nat)
    (eliminated : List Nat) (c : Nat)
    (h : roundEliminate votes numCandidates eliminated = some c) :
    c < numCandidates ∧ c ∉ eliminated ∧
    countVotes votes numCandidates eliminated c =
      minVotes votes numCandidates eliminated ∧
    ∀ d, d < numCandidates → d ∉ eliminated →
      countVotes votes numCandidates eliminated d =
        minVotes votes numCandidates eliminated →
      c ≤ d := by
  rw [roundEliminate] at h
  have hmem : c ∈ tiedCandidates votes numCandidates eliminated :=
    List.mem_of_mem_head? (Option.mem_def.mpr h)
  rw [tiedCandidates, List.mem_filter] at hmem
  obtain ⟨hrange, hcond⟩ := hmem
  simp only [Bool.and_eq_true, Bool.not_eq_true', beq_iff_eq] at hcond
  refine ⟨List.mem_range.mp hrange, ?_, hcond.2, ?_⟩
  · intro hc
    have : eliminated.contains c = true := List.elem_iff.mpr hc
    rw [hcond.1] at this
    exact Bool.noConfusion this
  · intro d hd hnd hcnt
    refine head?_filter_range_le numCandidates _ c h d ?_
    rw [List.mem_filter]
    refine ⟨List.mem_range.mpr hd, ?_⟩
    simp only [Bool.and_eq_true, Bool.not_eq_true', beq_iff_eq]
    exact ⟨by simp [List.elem_iff, hnd], hcnt⟩

/-- C3: in every elimination round, the candidate the round eliminates
is a not-yet-eliminated candidate whose count is the round's minimum,
and it is the least such index; concretely, with two candidates and
exactly the ballots `[0,1]` and `[1,0]`, the result is `[1, 0]`. -/
theorem calculateResults_tiebreak :
    (∀ (votes : List (List Int)) (numCandidates : Nat)
       (eliminated : List Nat) (c : Nat),
      roundEliminate votes numCandidates eliminated = some c →
        c < numCandidates ∧ c ∉ eliminated ∧
        countVotes votes numCandidates eliminated c =
          minVotes votes numCandidates eliminated ∧
        ∀ d, d < numCandidates → d ∉ eliminated →
          countVotes votes numCandidates eliminated d =
            minVotes votes numCandidates eliminated →
          c ≤ d) ∧
    CalculateResults tiePoll = some [1, 0] :=
  ⟨roundEliminate_spec, by decide⟩

/-- Witness for C3: in the first round of the concrete tie, candidate 0
is eliminated and it is minimal among the tied candidates 0 and 1. -/
theorem calculateResults_tiebreak_witness : (0 : Nat) ≤ 1 :=
  (calculateResults_tiebreak.1 [[0, 1], [1, 0]] 2 [] 0 (by rfl)).2.2.2 1
    (by decide) (by decide) (by decide)

/-! ## Claim C1: CalculateResults returns a permutation of [0, N) -/

/-- Helper: folding `min` never rises above the initial value. -/
theorem foldl_min_le_init (f : Nat → Nat) :
    ∀ (l : List Nat) (i : Nat), l.foldl (fun m c => min m (f c)) i ≤ i := by
  intro l
  induction l with
  | nil => intro i; exact Nat.le_refl i
  | cons a t ih =>
    intro i
    exact Nat.le_trans (ih (min i (f a))) (Nat.min_le_left _ _)

/-- Helper: folding `min` is below `f` at every list member. -/
theorem foldl_min_le_mem (f : Nat → Nat) :
    ∀ (l : List Nat) (i c : Nat), c ∈ l →
      l.foldl (fun m c => min m (f c)) i ≤ f c := by
  intro l
  induction l with
  | nil => intro i c hc; cases hc
  | cons a t ih =>
    intro i c hc
    rcases List.mem_cons.mp hc with rfl | hc
    · exact Nat.le_trans (foldl_min_le_init f t _) (Nat.min_le_right _ _)
    · exact ih _ c hc

/-- Helper: folding `min` returns either its initial value or `f` of
some list member. -/
theorem foldl_min_attained (f : Nat → Nat) :
    ∀ (l : List Nat) (i : Nat),
      l.foldl (fun m c => min m (f c)) i = i ∨
        ∃ c ∈ l, l.foldl (fun m c => min m (f c)) i = f c := by
  intro l
  induction l with
  | nil => intro i; exact Or.inl rfl
  | cons a t ih =>
    intro i
    simp only [List.foldl_cons]
    rcases ih (min i (f a)) with h | ⟨c, hc, h⟩
    · rcases Nat.le_total i (f a) with hle | hle
      · exact Or.inl (by rw [h, Nat.min_eq_left hle])
      · exact Or.inr ⟨a, by simp, by rw [h, Nat.min_eq_right hle]⟩
    · exact Or.inr ⟨c, by simp [hc], h⟩

/-- Helper: while a candidate remains uneliminated, the minimum count is
attained by some remaining candidate. -/
theorem minVotes_attained (votes : List (List Int)) (numCandidates : Nat)
    (eliminated : List Nat)
    (hne : remainingCandidates numCandidates eliminated ≠ []) :
    ∃ c ∈ remainingCandidates numCandidates eliminated,
      minVotes votes numCandidates eliminated =
        countVotes votes numCandidates eliminated c := by
  rcases foldl_min_attained (countVotes votes numCandidates eliminated)
      (remainingCandidates numCandidates eliminated) (votes.length + 1) with
    h | ⟨c, hc, h⟩
  · obtain ⟨c0, hc0⟩ := List.exists_mem_of_ne_nil _ hne
    have h1 : minVotes votes numCandidates eliminated ≤
        countVotes votes numCandidates eliminated c0 := by
      rw [minVotes]
      exact foldl_min_le_mem (countVotes votes numCandidates eliminated)
        (remainingCandidates numCandidates eliminated) (votes.length + 1) c0 hc0
    have h2 : countVotes votes numCandidates eliminated c0 ≤ votes.length :=
      List.countP_le_length _
    have hmv : minVotes votes numCandidates eliminated = votes.length + 1 := by
      rw [minVotes]
      exact h
    omega
  · exact ⟨c, hc, by rw [minVotes]; exact h⟩

/-- Helper: fewer eliminations than candidates leaves some candidate
remaining. -/
theorem remaining_ne_of_lt (numCandidates : Nat) (eliminated : List Nat)
    (h : eliminated.length < numCandidates) :
    remainingCandidates numCandidates eliminated ≠ [] := by
  intro hempty
  have hsub : List.range numCandidates ⊆ eliminated := by
    intro c hc
    by_contra hcel
    have : c ∈ remainingCandidates numCandidates eliminated := by
      rw [remainingCandidates, List.mem_filter]
      exact ⟨hc, by simp [List.elem_iff, hcel]⟩
    rw [hempty] at this
    cases this
  have := (List.subperm_of_subset (List.nodup_range numCandidates) hsub).length_le
  simp at this
  omega

/-- Helper: an elimination round always finds a candidate while more
than one candidate remains. -/
theorem roundEliminate_isSome (votes : List (List Int)) (numCandidates : Nat)
    (eliminated : List Nat) (h : eliminated.length < numCandidates) :
    ∃ c, roundEliminate votes numCandidates eliminated = some c := by
  have hne := remaining_ne_of_lt numCandidates eliminated h
  obtain ⟨c, hc, hmin⟩ := minVotes_attained votes numCandidates eliminated hne
  have hmem : c ∈ tiedCandidates votes numCandidates eliminated := by
    rw [remainingCandidates, List.mem_filter] at hc
    rw [tiedCandidates, List.mem_filter]
    refine ⟨hc.1, ?_⟩
    simp only [Bool.and_eq_true, beq_iff_eq]
    exact ⟨hc.2, hmin.symm⟩
  cases ht : tiedCandidates votes numCandidates eliminated with
  | nil => rw [ht] at hmem; cases hmem
  | cons a t => exact ⟨a, by rw [roundEliminate, ht]; rfl⟩

/-- Helper: the elimination loop, run with `fuel` rounds left to
perform, succeeds and extends the elimination order by exactly `fuel`
fresh in-range candidates. -/
theorem elimRounds_spec (votes : List (List Int)) (numCandidates : Nat) :
    ∀ (fuel : Nat) (eliminated : List Nat), eliminated.Nodup →
      (∀ c ∈ eliminated, c < numCandidates) →
      eliminated.length + fuel < numCandidates →
      ∃ r, elimRounds votes numCandidates fuel eliminated = some r ∧
        r.Nodup ∧ (∀ c ∈ r, c < numCandidates) ∧
        r.length = eliminated.length + fuel := by
  intro fuel
  induction fuel with
  | zero =>
    intro eliminated h1 h2 _
    exact ⟨eliminated, rfl, h1, h2, by omega⟩
  | succ k ih =>
    intro eliminated h1 h2 h3
    obtain ⟨c, hc⟩ := roundEliminate_isSome votes numCandidates eliminated
      (by omega)
    obtain ⟨hcN, hcne, -, -⟩ := roundEliminate_spec votes numCandidates
      eliminated c hc
    have hnd : (eliminated ++ [c]).Nodup := by
      rw [List.nodup_append]
      exact ⟨h1, List.nodup_singleton c,
        fun a ha hb => hcne ((List.mem_singleton.mp hb) ▸ ha)⟩
    obtain ⟨r, hr, hrnd, hrbd, hrlen⟩ := ih (eliminated ++ [c]) hnd
      (fun a ha => by
        rcases List.mem_append.mp ha with ha | ha
        · exact h2 a ha
        · exact (List.mem_singleton.mp ha) ▸ hcN)
      (by simp; omega)
    refine ⟨r, ?_, hrnd, hrbd, by simp at hrlen; omega⟩
    rw [elimRounds, hc]
    exact hr

/-- Helper: the elimination order followed by the remaining candidates
is a permutation of the full candidate range. -/
theorem append_remaining_perm (numCandidates : Nat) (r : List Nat)
    (hnd : r.Nodup) (hbd : ∀ c ∈ r, c < numCandidates) :
    (r ++ remainingCandidates numCandidates r).Perm
      (List.range numCandidates) := by
  have hnd2 : (remainingCandidates numCandidates r).Nodup :=
    List.Nodup.filter _ (List.nodup_range numCandidates)
  have hndapp : (r ++ remainingCandidates numCandidates r).Nodup := by
    rw [List.nodup_append]
    refine ⟨hnd, hnd2, fun a ha hb => ?_⟩
    rw [remainingCandidates, List.mem_filter] at hb
    have := hb.2
    simp [List.elem_iff, ha] at this
  rw [List.perm_ext_iff_of_nodup hndapp (List.nodup_range numCandidates)]
  intro a
  constructor
  · intro ha
    rcases List.mem_append.mp ha with ha | ha
    · exact List.mem_range.mpr (hbd a ha)
    · rw [remainingCandidates, List.mem_filter] at ha
      exact ha.1
  · intro ha
    by_cases hr : a ∈ r
    · exact List.mem_append.mpr (Or.inl hr)
    · refine List.mem_append.mpr (Or.inr ?_)
      rw [remainingCandidates, List.mem_filter]
      exact ⟨ha, by simp [List.elem_iff, hr]⟩

/-- C1: for every submission count N ≥ 0 and every vote set — sentinel
`-1` and out-of-range entries included — `CalculateResults` returns a
list that is a permutation of `[0, N)`, and that list is empty exactly
when N = 0. -/
theorem calculateResults_perm (p : Poll) :
    ∃ l, CalculateResults p = some l ∧
      l.Perm (List.range p.Submissions.length) ∧
      (l = [] ↔ p.Submissions.length = 0) := by
  by_cases hN : p.Submissions.length = 0
  · exact ⟨[], by simp [CalculateResults, hN], by simp [hN], by simp [hN]⟩
  · by_cases hV : p.Votes.length = 0
    · refine ⟨List.range p.Submissions.length, ?_, List.Perm.refl _, ?_⟩
      · simp [CalculateResults, hN, hV]
      · rw [List.range_eq_nil]
    · obtain ⟨r, hr, hrnd, hrbd, hrlen⟩ := elimRounds_spec
        (p.Votes.map Vote.Rankings) p.Submissions.length
        (p.Submissions.length - 1) [] List.nodup_nil (by simp)
        (by simp only [List.length_nil]; omega)
      simp only [List.length_nil, Nat.zero_add] at hrlen
      have hperm := append_remaining_perm p.Submissions.length r hrnd hrbd
      have hlenrem : (remainingCandidates p.Submissions.length r).length = 1 := by
        have := hperm.length_eq
        simp only [List.length_append, List.length_range] at this
        omega
      obtain ⟨w, hw⟩ := List.length_eq_one.mp hlenrem
      refine ⟨(r ++ [w]).reverse, ?_, ?_, ?_⟩
      · simp only [CalculateResults]
        rw [if_neg hN, if_neg hV, hr]
        simp [hw]
      · have heq : r ++ [w] = r ++ remainingCandidates p.Submissions.length r := by
          rw [hw]
        exact (List.reverse_perm _).trans (heq ▸ hperm)
      · simp [hN]

/-! ## Claim C9: the interaction-token codec -/

/-- Helper: splitting at the first separator occurrence peels off the
separator-free prefix as one field. -/
theorem splitOnChar_sep (sep : Char) :
    ∀ (a rest : List Char), sep ∉ a →
      splitOnChar sep (a ++ sep :: rest) = a :: splitOnChar sep rest := by
  intro a
  induction a with
  | nil => intro rest _; simp [splitOnChar]
  | cons c cs ih =>
    intro rest h
    have hc : c ≠ sep := fun hcs => h (by simp [hcs])
    have h2 := ih rest (fun hm => h (by simp [hm]))
    simp [splitOnChar, hc, h2]

/-- Helper: a separator-free string splits into a single field. -/
theorem splitOnChar_no_sep (sep : Char) :
    ∀ a : List Char, sep ∉ a → splitOnChar sep a = [a] := by
  intro a
  induction a with
  | nil => intro _; rfl
  | cons c cs ih =>
    intro h
    have hc : c ≠ sep := fun hcs => h (by simp [hcs])
    simp [splitOnChar, hc, ih (fun hm => h (by simp [hm]))]

/-- Helper: splitting never produces an empty field list. -/
theorem splitOnChar_ne_nil (sep : Char) :
    ∀ s : List Char, splitOnChar sep s ≠ [] := by
  intro s
  induction s with
  | nil => simp [splitOnChar]
  | cons c cs ih =>
    by_cases hc : c = sep
    · simp [splitOnChar, hc]
    · cases h : splitOnChar sep cs with
      | nil => exact absurd h ih
      | cons r rs => simp [splitOnChar, hc, h]

/-- Helper: the number of fields is one more than the number of
separator occurrences. -/
theorem splitOnChar_length (sep : Char) :
    ∀ s : List Char, (splitOnChar sep s).length = s.count sep + 1 := by
  intro s
  induction s with
  | nil => simp [splitOnChar]
  | cons c cs ih =>
    by_cases hc : c = sep
    · simp [splitOnChar, hc, List.count_cons, ih]
    · cases h : splitOnChar sep cs with
      | nil => exact absurd h (splitOnChar_ne_nil sep cs)
      | cons r rs =>
        have hcb : (c == sep) = false := beq_eq_false_iff_ne.mpr hc
        simp only [splitOnChar, if_neg hc, h, List.length_cons,
          List.count_cons, hcb, if_false]
        rw [h] at ih
        simpa using ih

/-- Helper: the character of a decimal digit. -/
theorem digitChar_toNat (d : Nat) (h : d < 10) :
    (digitChar d).toNat = 48 + d := by
  interval_cases d <;> rfl

/-- Helper: the digit accumulator only ever appends to its
accumulator. -/
theorem natToCharsAux_eq (n : Nat) :
    ∀ acc, natToCharsAux n acc = natToCharsAux n [] ++ acc := by
  induction n using Nat.strong_induction_on with
  | _ n ih =>
    intro acc
    cases n with
    | zero => simp [natToCharsAux]
    | succ m =>
      rw [natToCharsAux]
      rw [ih ((m + 1) / 10) (Nat.div_lt_self (Nat.succ_pos m) (by omega))]
      conv_rhs => rw [natToCharsAux,
        ih ((m + 1) / 10) (Nat.div_lt_self (Nat.succ_pos m) (by omega))]
      simp

/-- Helper: every rendered character is a decimal digit. -/
theorem natToCharsAux_digits (n : Nat) :
    ∀ c ∈ natToCharsAux n [], 48 ≤ c.toNat ∧ c.toNat ≤ 57 := by
  induction n using Nat.strong_induction_on with
  | _ n ih =>
    intro c hc
    cases n with
    | zero => rw [natToCharsAux] at hc; cases hc
    | succ m =>
      rw [natToCharsAux, natToCharsAux_eq] at hc
      rcases List.mem_append.mp hc with hc | hc
      · exact ih ((m + 1) / 10) (Nat.div_lt_self (Nat.succ_pos m) (by omega)) c hc
      · have : c = digitChar ((m + 1) % 10) := by simpa using hc
        subst this
        have h10 : (m + 1) % 10 < 10 := Nat.mod_lt _ (by omega)
        rw [digitChar_toNat _ h10]
        omega

/-- Helper: the decimal scan distributes over concatenation. -/
theorem parseNatDigits_append :
    ∀ (xs ys : List Char) (acc : Nat),
      parseNatDigits (xs ++ ys) acc =
        match parseNatDigits xs acc with
        | some m => parseNatDigits ys m
        | none => none := by
  intro xs
  induction xs with
  | nil => intro ys acc; rfl
  | cons c rest ih =>
    intro ys acc
    by_cases hc : 48 ≤ c.toNat ∧ c.toNat ≤ 57 <;>
      simp [parseNatDigits, hc, ih]

/-- Helper: scanning the rendered digits of `n` after accumulator `a`
extends `a` positionally by `n`. -/
theorem parseNatDigits_natToCharsAux (n : Nat) :
    ∀ a : Nat, parseNatDigits (natToCharsAux n []) a =
      some (a * 10 ^ (natToCharsAux n []).length + n) := by
  induction n using Nat.strong_induction_on with
  | _ n ih =>
    intro a
    cases n with
    | zero => simp [natToCharsAux, parseNatDigits]
    | succ m =>
      have hq : (m + 1) / 10 < m + 1 := Nat.div_lt_self (Nat.succ_pos m) (by omega)
      have hdec : natToCharsAux (m + 1) [] =
          natToCharsAux ((m + 1) / 10) [] ++ [digitChar ((m + 1) % 10)] := by
        rw [natToCharsAux, natToCharsAux_eq _ _]
      rw [hdec, parseNatDigits_append, ih _ hq a]
      have h10 : (m + 1) % 10 < 10 := Nat.mod_lt _ (by omega)
      have hdg : 48 ≤ (digitChar ((m + 1) % 10)).toNat ∧
          (digitChar ((m + 1) % 10)).toNat ≤ 57 := by
        rw [digitChar_toNat _ h10]; omega
      simp only [parseNatDigits, if_pos hdg, List.length_append,
        List.length_cons, List.length_nil]
      rw [digitChar_toNat _ h10]
      congr 1
      have hqd : 10 * ((m + 1) / 10) + (m + 1) % 10 = m + 1 :=
        Nat.div_add_mod (m + 1) 10
      have h48 : 48 + (m + 1) % 10 - 48 = (m + 1) % 10 := by omega
      rw [h48]
      set L := (natToCharsAux ((m + 1) / 10) []).length with hL
      have hexp : a * 10 ^ L * 10 = a * 10 ^ (L + 0 + 1) := by
        rw [pow_succ]
        ring
      calc (a * 10 ^ L + (m + 1) / 10) * 10 + (m + 1) % 10
          = a * 10 ^ L * 10 + (10 * ((m + 1) / 10) + (m + 1) % 10) := by ring
        _ = a * 10 ^ (L + 0 + 1) + (m + 1) := by rw [hexp, hqd]

/-- Helper: scanning the full decimal rendering of `m` yields `m`. -/
theorem parseNatDigits_natToChars (m : Nat) :
    parseNatDigits (natToChars m) 0 = some m := by
  by_cases hm : m = 0
  · subst hm; decide
  · rw [natToChars, if_neg hm, parseNatDigits_natToCharsAux m 0]
    simp

/-- Helper: the decimal rendering is never empty. -/
theorem natToChars_ne_nil (m : Nat) : natToChars m ≠ [] := by
  by_cases hm : m = 0
  · subst hm; decide
  · rw [natToChars, if_neg hm]
    cases m with
    | zero => exact absurd rfl hm
    | succ k =>
      rw [natToCharsAux, natToCharsAux_eq _ _]
      simp

/-- Helper: `Atoi` inverts the decimal rendering of a natural
number. -/
theorem Atoi_natToChars (n : Nat) : Atoi (natToChars n) = (n : Int) := by
  by_cases hn : n = 0
  · subst hn; decide
  · cases hcs : natToChars n with
    | nil => exact absurd hcs (natToChars_ne_nil n)
    | cons c rest =>
      have hdig : 48 ≤ c.toNat ∧ c.toNat ≤ 57 := by
        have hc : c ∈ natToChars n := by rw [hcs]; simp
        rw [natToChars, if_neg hn] at hc
        exact natToCharsAux_digits n c hc
      have hcm : c ≠ '-' := by
        intro h; subst h; revert hdig; decide
      have hcp : c ≠ '+' := by
        intro h; subst h; revert hdig; decide
      have hpn : parseNatDigits (c :: rest) 0 = some n := by
        rw [← hcs, parseNatDigits_natToChars]
      rw [Atoi, if_neg hcm, if_neg hcp, hpn]

/-- Helper: `Atoi` inverts Go's `%d` rendering of an integer. -/
theorem Atoi_intToChars (i : Int) : Atoi (intToChars i) = i := by
  by_cases hi : i < 0
  · have h1 : intToChars i = '-' :: natToChars i.natAbs := by
      rw [intToChars, if_pos hi]
    rw [h1, Atoi, if_pos rfl, if_neg (natToChars_ne_nil i.natAbs),
      parseNatDigits_natToChars]
    show -(i.natAbs : Int) = i
    omega
  · rw [intToChars, if_neg hi, Atoi_natToChars]
    omega

/-- Helper: no underscore occurs in a rendered integer. -/
theorem underscore_not_mem_intToChars (i : Int) : '_' ∉ intToChars i := by
  have hnat : ∀ m : Nat, '_' ∉ natToChars m := by
    intro m hm
    by_cases h0 : m = 0
    · subst h0; revert hm; decide
    · rw [natToChars, if_neg h0] at hm
      have := natToCharsAux_digits m '_' hm
      revert this; decide
  rw [intToChars]
  by_cases hi : i < 0
  · rw [if_pos hi]
    intro hm
    rcases List.mem_cons.mp hm with h | h
    · exact absurd h (by decide)
    · exact hnat _ h
  · rw [if_neg hi]
    exact hnat _

/-- C9 counterexample: `parseForm` is not defined on every input string:
on `"lock"`, which holds no delimiter, the Go code panics indexing
`split[1]` (modelled as `none`). -/
theorem parseForm_not_total_cex : parseForm ['l', 'o', 'c', 'k'] = none := rfl

/-- C9 (amended): the codec is a pure round-tripping pair on the tokens
it emits: for every formID whose kind and poll id contain no delimiter,
decoding the encoding returns the same kind, poll id, and rank;
`parseForm` is defined exactly on the inputs containing at least one
delimiter (it faults on the rest); and decoding a token with only two
delimiter-separated fields yields rank 0. -/
theorem formID_codec_roundtrip :
    (∀ f : formID, '_' ∉ f.Kind → '_' ∉ f.PollID →
      parseForm (formID.String f) = some f) ∧
    (∀ s : List Char, (parseForm s).isSome = true ↔ '_' ∈ s) ∧
    (∀ a b : List Char, '_' ∉ a → '_' ∉ b →
      parseForm (a ++ '_' :: b) = some { Kind := a, PollID := b, Rank := 0 }) := by
  refine ⟨?_, ?_, ?_⟩
  · intro f hk hp
    obtain ⟨k, pid, rank⟩ := f
    simp only at hk hp
    have h1 : formID.String ⟨k, pid, rank⟩ =
        k ++ '_' :: (pid ++ '_' :: intToChars rank) := by
      simp [formID.String]
    rw [parseForm, h1, splitOnChar_sep '_' k _ hk,
      splitOnChar_sep '_' pid _ hp,
      splitOnChar_no_sep '_' _ (underscore_not_mem_intToChars rank)]
    simp [Atoi_intToChars]
  · intro s
    cases h : splitOnChar '_' s with
    | nil => exact absurd h (splitOnChar_ne_nil '_' s)
    | cons k t =>
      cases t with
      | nil =>
        have hlen := splitOnChar_length '_' s
        rw [h] at hlen
        simp only [List.length_cons, List.length_nil] at hlen
        have hcount : s.count '_' = 0 := by omega
        rw [parseForm, h]
        simp [List.count_eq_zero.mp hcount]
      | cons pid rest =>
        have hlen := splitOnChar_length '_' s
        rw [h] at hlen
        simp only [List.length_cons] at hlen
        have hcount : 0 < s.count '_' := by omega
        rw [parseForm, h]
        simp [List.count_pos_iff.mp hcount]
  · intro a b ha hb
    rw [parseForm, splitOnChar_sep '_' a b ha, splitOnChar_no_sep '_' b hb]

/-- Witness for C9's amended statement: a concrete vote-select token
round-trips with its negative-looking poll id and rank 2 intact. -/
theorem formID_codec_roundtrip_witness :
    parseForm (formID.String
        { Kind := ['v', 'o', 't', 'e'], PollID := ['g', '-', '9'], Rank := 2 }) =
      some { Kind := ['v', 'o', 't', 'e'], PollID := ['g', '-', '9'], Rank := 2 } :=
  formID_codec_roundtrip.1
    { Kind := ['v', 'o', 't', 'e'], PollID := ['g', '-', '9'], Rank := 2 }
    (by decide) (by decide)

end HelloThere
